import Mathlib

/-!
Shallow embedding of the twitterScraping repository (src/index.js): the symbol
extractor, the scroll-completion detector, the source harvester scrapeTwitter,
and the aggregation scheduler scrapeAndPrint / main, together with theorems
settling the behavioural claims about them.
-/

/-- JS word-character test for the regex character class (ASCII letter, digit or underscore),
as used by the ticker pattern in scrapeTwitter. -/
def isWordChar (c : Char) : Bool :=
  c.isAlpha || c.isDigit || c == '_'

/-- Greedy prefix of at most n word characters: the bounded quantifier of the ticker regex. -/
def takeWord : Nat → List Char → List Char
  | 0, _ => []
  | _ + 1, [] => []
  | n + 1, c :: cs => if isWordChar c then c :: takeWord n cs else []

/-- One left-to-right pass of the global ticker regex over a character list, fuel-indexed;
with fuel at least the list length this is exactly the JS scan of tweet.match: at a sigil
followed by at least 3 word characters it takes greedily up to 4 and resumes after the
match, otherwise it advances one character. Each step consumes at least one character and
exactly one unit of fuel, so fuel equal to the length is always enough. -/
def scanAux : Nat → List Char → List (List Char)
  | 0, _ => []
  | _ + 1, [] => []
  | fuel + 1, c :: cs =>
    if c = '$' then
      if 3 ≤ (takeWord 4 cs).length then
        ('$' :: takeWord 4 cs) :: scanAux fuel (cs.drop (takeWord 4 cs).length)
      else scanAux fuel cs
    else scanAux fuel cs

/-- All matches of the ticker regex in a character list, left to right, non-overlapping. -/
def scanTickers (l : List Char) : List (List Char) := scanAux l.length l

/-- Lookup in a JS object used as a counter: the association list is kept in insertion
order and the lookup reads the first entry for the key, 0 when absent. -/
def getCount : List (String × Nat) → String → Nat
  | [], _ => 0
  | (k', c) :: rest, k => if k' = k then c else getCount rest k

/-- The JS counter update pattern: add n to the entry for the key if present, otherwise
append a fresh entry at the end (insertion order of a JS object). -/
def addCount : List (String × Nat) → String → Nat → List (String × Nat)
  | [], k, n => [(k, n)]
  | (k', c) :: rest, k, n =>
    if k' = k then (k', c + n) :: rest else (k', c) :: addCount rest k n

/-- The inner forEach of scrapeTwitter: bump the count of each regex match by one. -/
def bumpMatches (m : List (String × Nat)) (ws : List (List Char)) : List (String × Nat) :=
  ws.foldl (fun acc w => addCount acc (String.mk w) 1) m

/-- The symbol extractor: the counter built from the regex matches of one text block. -/
def extractTickers (text : String) : List (String × Nat) :=
  bumpMatches [] (scanTickers text.data)

/-- Total of all counts held in a counter. -/
def totalCount (m : List (String × Nat)) : Nat := (m.map Prod.snd).sum

/-- The per-source counting loop of scrapeTwitter: one shared counter accumulated over
the extracted article texts. -/
def countTweets (tweets : List String) : List (String × Nat) :=
  tweets.foldl (fun m t => bumpMatches m (scanTickers t.data)) []

/-- The scroll loop of scrapeTwitter, with prev the last recorded height and the list
holding the heights the renderer reports on successive measurements. Returns the number
of scroll-pause-measure cycles until a measurement equals the previous one, or none when
the supplied measurements run out first (the loop would keep scrolling). -/
def detectEnd (prev : Nat) : List Nat → Option Nat
  | [] => none
  | h :: rest => if h = prev then some 1 else (detectEnd h rest).map (fun n => n + 1)

/-- The full scroll-completion detector: the first element of the list is the initial
height measured before the loop, the rest are the in-loop measurements. -/
def scrollDetector : List Nat → Option Nat
  | [] => none
  | h :: rest => detectEnd h rest

/-- Abstract renderer session for one harvest: whether navigation succeeds, the
successive content heights it reports, whether the article selector appears within the
bounded wait, and the article texts of the final markup. -/
structure Renderer where
  gotoOk : Bool
  heights : List Nat
  selectorOk : Bool
  articles : List String

/-- Tests whether a harvest result is a success. -/
def isOkResult : Except String (List (String × Nat)) → Bool
  | Except.ok _ => true
  | Except.error _ => false

/-- scrapeTwitter: launch, navigate, scroll to exhaustion, readiness wait, extract,
close. The second component counts the invocations of the browser close operation; the
source closes only on the straight-line success path (there is no try/finally), so every
error exit performs zero closes. The result none models the scroll loop running forever
because no two consecutive height measurements ever agree. -/
def scrapeTwitter (r : Renderer) : Option (Except String (List (String × Nat)) × Nat) :=
  if r.gotoOk then
    match scrollDetector r.heights with
    | none => none
    | some _ =>
      if r.selectorOk then some (Except.ok (countTweets r.articles), 1)
      else some (Except.error "ReadinessTimeout", 0)
  else some (Except.error "NavigationFailure", 0)

/-- The merge step of scrapeAndPrint: fold the entries of one per-source result into the
cumulative tally, key by key, in the iteration order of the result object. -/
def mergeCounts (tally m : List (String × Nat)) : List (String × Nat) :=
  m.foldl (fun t p => addCount t p.1 p.2) tally

/-- The cumulative tally of one run: per-source results merged in order, starting empty. -/
def mergeAll (results : List (List (String × Nat))) : List (String × Nat) :=
  results.foldl mergeCounts []

/-- Tally state after the first i per-source merges of one scheduled run. -/
def tallyAfter (results : List (List (String × Nat))) (i : Nat) : List (String × Nat) :=
  mergeAll (results.take i)

/-- One scheduled run of scrapeAndPrint over fallible per-source harvests: the loop has
no try/catch, so the first failing harvest rejects the whole run. Returns the accounts
whose harvest was actually attempted, in order, and either the final tally or the first
error. -/
def scrapeAndPrintRun (harvest : String → Except String (List (String × Nat))) :
    List String → List (String × Nat) → List String × Except String (List (String × Nat))
  | [], tally => ([], Except.ok tally)
  | a :: rest, tally =>
    match harvest a with
    | Except.error e => ([a], Except.error e)
    | Except.ok m =>
      let r := scrapeAndPrintRun harvest rest (mergeCounts tally m)
      (a :: r.1, r.2)

/-- Report lines of a run, one (ticker, count) pair per symbol in the final tally; a run
that aborted with an error never reaches the report loop and emits none. -/
def reportsOf : Except String (List (String × Nat)) → List (String × Nat)
  | Except.error _ => []
  | Except.ok tally => tally

/-- Math.round of a nonnegative millisecond quantity divided by 60000, as computed by
the elapsedMinutes line of scrapeAndPrint (ties round up). -/
def jsRoundMinutes (ms : Nat) : Nat := (2 * ms + 60000) / 120000

/-- The elapsedMinutes computation of scrapeAndPrint: rounded minutes between the single
startTime of main and the report instant. -/
def elapsedMinutesAt (startTime currentTime : Nat) : Nat :=
  jsRoundMinutes (currentTime - startTime)

/-- The run trace of main: startTime is captured once, in the scope of main, before the
first run; each run is given by its own start instant and duration, reports at
start + duration, and logs the elapsed minutes the code computes from the process-wide
startTime, not from the start of that run. -/
def mainTrace (startTime : Nat) (runs : List (Nat × Nat)) : List (Nat × Nat) :=
  runs.map (fun r => (r.1 + r.2, elapsedMinutesAt startTime (r.1 + r.2)))

/-- Fire time of the k-th timer callback (0-indexed) of the setInterval call in main,
armed at armTime right after the first run completes: JS setInterval fires on a
fixed-rate clock measured from arming, independent of when any callback completes. -/
def codeTrigger (armTime interval k : Nat) : Nat := armTime + (k + 1) * interval

/-- Completion instant of the k-th timer-fired run, given the duration of each run. -/
def completionTime (armTime interval : Nat) (dur : Nat → Nat) (k : Nat) : Nat :=
  codeTrigger armTime interval k + dur k

/-- Shape of a ticker key: the sigil followed by exactly 3 or 4 word characters. -/
def tickerShaped (s : String) : Prop :=
  ∃ w : List Char, s.data = '$' :: w ∧ w.all isWordChar = true ∧ (w.length = 3 ∨ w.length = 4)

/-- A counter whose keys are pairwise distinct, as every counter built by addCount is. -/
abbrev keysNodup (m : List (String × Nat)) : Prop := (m.map Prod.fst).Nodup

/-- Total of the values attached to one key across all entries of an association list;
equals getCount when the keys are pairwise distinct. -/
def entriesSum (m : List (String × Nat)) (k : String) : Nat :=
  (m.map (fun p => if p.1 = k then p.2 else 0)).sum

/-- Sample text of the extractor example. -/
def sampleText : String := "$AAPL up, $AAPL again, $TSLA"

/-- Sample text with no ticker matches. -/
def sampleNoMatch : String := "no symbols here"

/-- Sample text whose sigil is followed by five word characters. -/
def sampleTrunc : String := "$ABCDE"

/-- Sample fallible harvest used to exercise the scheduler abort path: one good
source followed by one that fails. -/
def demoHarvest : String → Except String (List (String × Nat)) :=
  fun a => if a = "goodA" then Except.ok [( "$GME", 5)] else Except.error "boom"

/-! Helper lemmas about the counter operations. -/

theorem getCount_addCount_same (m : List (String × Nat)) (k : String) (n : Nat) :
    getCount (addCount m k n) k = getCount m k + n := by
  induction m with
  | nil => simp [addCount, getCount]
  | cons p rest ih =>
    obtain ⟨k', c⟩ := p
    by_cases hk : k' = k
    · simp [addCount, getCount, hk]
    · simp [addCount, getCount, hk, ih]

theorem getCount_addCount_ne (m : List (String × Nat)) (k k' : String) (n : Nat)
    (h : k ≠ k') : getCount (addCount m k n) k' = getCount m k' := by
  induction m with
  | nil => simp [addCount, getCount, h]
  | cons p rest ih =>
    obtain ⟨k0, c⟩ := p
    by_cases hk : k0 = k
    · subst hk
      simp [addCount, getCount, h]
    · simp [addCount, getCount, hk, ih]

theorem totalCount_addCount (m : List (String × Nat)) (k : String) (n : Nat) :
    totalCount (addCount m k n) = totalCount m + n := by
  induction m with
  | nil => simp [addCount, totalCount]
  | cons p rest ih =>
    obtain ⟨k0, c⟩ := p
    by_cases hk : k0 = k
    · simp [addCount, totalCount, hk]
      omega
    · simp [addCount, totalCount, hk] at ih ⊢
      omega

theorem totalCount_bumpMatches (ws : List (List Char)) (m : List (String × Nat)) :
    totalCount (bumpMatches m ws) = totalCount m + ws.length := by
  induction ws generalizing m with
  | nil => simp [bumpMatches]
  | cons w rest ih =>
    simp only [bumpMatches, List.foldl_cons] at ih ⊢
    rw [ih, totalCount_addCount]
    simp only [List.length_cons]
    omega

theorem getCount_mergeCounts (m t : List (String × Nat)) (k : String) :
    getCount (mergeCounts t m) k = getCount t k + entriesSum m k := by
  induction m generalizing t with
  | nil => simp [mergeCounts, entriesSum]
  | cons p rest ih =>
    obtain ⟨k0, c⟩ := p
    simp only [mergeCounts, List.foldl_cons] at ih ⊢
    rw [ih]
    by_cases hk : k0 = k
    · subst hk
      rw [getCount_addCount_same]
      simp [entriesSum]
      omega
    · rw [getCount_addCount_ne _ _ _ _ hk]
      simp [entriesSum, hk]

theorem getCount_foldl_merge (results : List (List (String × Nat)))
    (t : List (String × Nat)) (k : String) :
    getCount (results.foldl mergeCounts t) k
      = getCount t k + (results.map (fun m => entriesSum m k)).sum := by
  induction results generalizing t with
  | nil => simp
  | cons m rest ih =>
    simp only [List.foldl_cons, List.map_cons, List.sum_cons]
    rw [ih, getCount_mergeCounts]
    omega

theorem getCount_mergeAll (results : List (List (String × Nat))) (k : String) :
    getCount (mergeAll results) k = (results.map (fun m => entriesSum m k)).sum := by
  unfold mergeAll
  rw [getCount_foldl_merge]
  simp [getCount]

theorem entriesSum_of_not_mem (m : List (String × Nat)) (k : String)
    (h : ∀ p ∈ m, p.1 ≠ k) : entriesSum m k = 0 := by
  induction m with
  | nil => simp [entriesSum]
  | cons p rest ih =>
    have hp : p.1 ≠ k := h p (List.mem_cons_self p rest)
    simp only [entriesSum, List.map_cons, List.sum_cons, if_neg hp, Nat.zero_add]
    exact ih (fun q hq => h q (List.mem_cons_of_mem p hq))

theorem entriesSum_eq_getCount (m : List (String × Nat)) (k : String)
    (h : keysNodup m) : entriesSum m k = getCount m k := by
  induction m with
  | nil => simp [entriesSum, getCount]
  | cons p rest ih =>
    obtain ⟨k0, c⟩ := p
    simp only [keysNodup, List.map_cons, List.nodup_cons] at h
    by_cases hk : k0 = k
    · subst hk
      have hz : entriesSum rest k0 = 0 := by
        apply entriesSum_of_not_mem
        intro q hq hq1
        exact h.1 (hq1 ▸ List.mem_map_of_mem Prod.fst hq)
      simp [entriesSum, getCount] at hz ⊢
      exact hz
    · simp only [entriesSum, List.map_cons, List.sum_cons, if_neg hk, Nat.zero_add]
      have h2 := ih h.2
      simp only [entriesSum] at h2
      rw [h2]
      simp [getCount, hk]

/-! Helper lemmas about the regex scan. -/

theorem ne_sigil_of_isWordChar (c : Char) (h : isWordChar c = true) : c ≠ '$' := by
  intro hc
  rw [hc] at h
  exact absurd h (by decide)

theorem takeWord_all_word (n : Nat) (l : List Char) : (takeWord n l).all isWordChar = true := by
  induction n generalizing l with
  | zero => rfl
  | succ m ih =>
    cases l with
    | nil => rfl
    | cons c cs =>
      by_cases hc : isWordChar c = true
      · simp [takeWord, hc, ih cs]
      · simp [takeWord, hc]

theorem takeWord_length_le (n : Nat) (l : List Char) : (takeWord n l).length ≤ n := by
  induction n generalizing l with
  | zero => simp [takeWord]
  | succ m ih =>
    cases l with
    | nil => simp [takeWord]
    | cons c cs =>
      by_cases hc : isWordChar c = true
      · simp only [takeWord, hc, if_true, List.length_cons]
        exact Nat.succ_le_succ (ih cs)
      · simp [takeWord, hc]

theorem takeWord_eq_take (n : Nat) (l : List Char) (h : l.all isWordChar = true) :
    takeWord n l = l.take n := by
  induction n generalizing l with
  | zero => simp [takeWord]
  | succ m ih =>
    cases l with
    | nil => rfl
    | cons c cs =>
      simp only [List.all_cons, Bool.and_eq_true] at h
      simp [takeWord, h.1, ih cs h.2]

theorem scanAux_no_sigil (fuel : Nat) (l : List Char) (h : ∀ c ∈ l, c ≠ '$') :
    scanAux fuel l = [] := by
  induction fuel generalizing l with
  | zero => rfl
  | succ f ih =>
    cases l with
    | nil => rfl
    | cons c cs =>
      have hc : c ≠ '$' := h c (List.mem_cons_self c cs)
      simp only [scanAux, if_neg hc]
      exact ih cs (fun d hd => h d (List.mem_cons_of_mem c hd))

theorem scanAux_shape (fuel : Nat) (l w : List Char) (hw : w ∈ scanAux fuel l) :
    ∃ ws, w = '$' :: ws ∧ ws.all isWordChar = true ∧ 3 ≤ ws.length ∧ ws.length ≤ 4 := by
  induction fuel generalizing l with
  | zero => exact absurd hw (by simp [scanAux])
  | succ f ih =>
    cases l with
    | nil => exact absurd hw (by simp [scanAux])
    | cons c cs =>
      by_cases hc : c = '$'
      · subst hc
        by_cases h3 : 3 ≤ (takeWord 4 cs).length
        · simp [scanAux, h3] at hw
          rcases hw with hhd | htl
          · exact ⟨takeWord 4 cs, hhd, takeWord_all_word 4 cs, h3, takeWord_length_le 4 cs⟩
          · exact ih _ htl
        · simp [scanAux, h3] at hw
          exact ih _ hw
      · simp only [scanAux, if_neg hc] at hw
        exact ih _ hw

/-! Helper lemmas about the scroll detector and the merge fold. -/

theorem detectEnd_chain_none (l : List Nat) (prev : Nat)
    (h : List.Chain (fun a b => a < b) prev l) : detectEnd prev l = none := by
  induction l generalizing prev with
  | nil => rfl
  | cons x rest ih =>
    cases h with
    | cons hlt hchain =>
      have hne : x ≠ prev := by omega
      simp [detectEnd, hne, ih x hchain]

theorem getCount_tallyAfter_mono (results : List (List (String × Nat))) (i j : Nat)
    (k : String) (hij : i ≤ j) :
    getCount (tallyAfter results i) k ≤ getCount (tallyAfter results j) k := by
  unfold tallyAfter
  rw [getCount_mergeAll, getCount_mergeAll]
  obtain ⟨d, rfl⟩ := Nat.le.dest hij
  rw [List.take_add, List.map_append, List.sum_append]
  omega

theorem scrapeAndPrintRun_aborts (harvest : String → Except String (List (String × Nat)))
    (pre post : List String) (bad e : String) (tally : List (String × Nat))
    (hpre : ∀ a ∈ pre, ∃ m, harvest a = Except.ok m)
    (hbad : harvest bad = Except.error e) :
    scrapeAndPrintRun harvest (pre ++ bad :: post) tally = (pre ++ [bad], Except.error e) := by
  induction pre generalizing tally with
  | nil =>
    simp [scrapeAndPrintRun, hbad]
  | cons a rest ih =>
    obtain ⟨m, hm⟩ := hpre a (List.mem_cons_self a rest)
    simp only [List.cons_append, scrapeAndPrintRun, hm]
    have h2 := ih (mergeCounts tally m) (fun b hb => hpre b (List.mem_cons_of_mem a hb))
    simp only [List.append_eq] at h2 ⊢
    rw [h2]

/-! Further helper lemmas for the truncation and key-shape claims. -/

theorem scanAux_sigil (fuel : Nat) (cs : List Char) (h3 : 3 ≤ (takeWord 4 cs).length) :
    scanAux (fuel + 1) ('$' :: cs)
      = ('$' :: takeWord 4 cs) :: scanAux fuel (cs.drop (takeWord 4 cs).length) := by
  simp [scanAux, h3]

theorem addCount_entry_shape (m : List (String × Nat)) (k : String) (P : String → Prop)
    (hm : ∀ p ∈ m, P p.1 ∧ 1 ≤ p.2) (hk : P k) :
    ∀ p ∈ addCount m k 1, P p.1 ∧ 1 ≤ p.2 := by
  induction m with
  | nil =>
    intro p hp
    simp [addCount] at hp
    rw [hp]
    exact ⟨hk, Nat.le_refl 1⟩
  | cons q rest ih =>
    obtain ⟨k0, c⟩ := q
    intro p hp
    by_cases hk0 : k0 = k
    · simp only [addCount, if_pos hk0, List.mem_cons] at hp
      rcases hp with h | h
      · have hq := hm (k0, c) (List.mem_cons_self _ _)
        rw [h]
        exact ⟨hq.1, by omega⟩
      · exact hm p (List.mem_cons_of_mem _ h)
    · simp only [addCount, if_neg hk0, List.mem_cons] at hp
      rcases hp with h | h
      · rw [h]
        exact hm (k0, c) (List.mem_cons_self _ _)
      · exact ih (fun q hq => hm q (List.mem_cons_of_mem _ hq)) p h

theorem bumpMatches_entry_shape (ws : List (List Char)) (m : List (String × Nat))
    (P : String → Prop) (hm : ∀ p ∈ m, P p.1 ∧ 1 ≤ p.2)
    (hws : ∀ w ∈ ws, P (String.mk w)) :
    ∀ p ∈ bumpMatches m ws, P p.1 ∧ 1 ≤ p.2 := by
  induction ws generalizing m with
  | nil => simpa [bumpMatches] using hm
  | cons w rest ih =>
    simp only [bumpMatches, List.foldl_cons] at ih ⊢
    exact ih (addCount m (String.mk w) 1)
      (addCount_entry_shape m (String.mk w) P hm (hws w (List.mem_cons_self _ _)))
      (fun v hv => hws v (List.mem_cons_of_mem _ hv))

/-! Claim theorems. -/

/-- C4: for every input text block the total summed count of the extractor output
equals the number of non-overlapping left-to-right regex matches; the sample text
yields the AAPL symbol twice and the TSLA symbol once, and a text with no matches
yields the empty counter. -/
theorem extractor_count_spec (t : String) :
    totalCount (extractTickers t) = (scanTickers t.data).length
    ∧ extractTickers sampleText = [( "$AAPL", 2), ( "$TSLA", 1)]
    ∧ extractTickers sampleNoMatch = [] := by
  refine ⟨?_, by decide, by decide⟩
  unfold extractTickers
  rw [totalCount_bumpMatches]
  simp [totalCount]

/-- C5: the detector terminates after exactly 2 measurement cycles, reporting
exhaustion, on the height sequence 500, 1200, 1200; a height constant from the
first measurement terminates after exactly one scroll and pause cycle; along a
strictly increasing height sequence it never terminates within the supplied
measurements, since it stops only on two equal consecutive measurements. -/
theorem scroll_detector_spec (h0 : Nat) (rest heights : List Nat)
    (hinc : List.Chain' (fun a b => a < b) heights) :
    scrollDetector [500, 1200, 1200] = some 2
    ∧ scrollDetector (h0 :: h0 :: rest) = some 1
    ∧ scrollDetector heights = none := by
  refine ⟨by decide, ?_, ?_⟩
  · simp [scrollDetector, detectEnd]
  · cases heights with
    | nil => rfl
    | cons x xs => exact detectEnd_chain_none xs x hinc

/-- Witness for scroll_detector_spec at concrete inputs. -/
theorem scroll_detector_spec_witness :
    scrollDetector [500, 1200, 1200] = some 2
    ∧ scrollDetector [7, 7] = some 1
    ∧ scrollDetector [1, 2, 3] = none :=
  scroll_detector_spec 7 [] [1, 2, 3]
    (List.Chain.cons (by omega) (List.Chain.cons (by omega) List.Chain.nil))

/-- C7: in every scheduled run the cumulative tally starts empty independently of
previous runs, every count in it is a nonnegative integer, and each symbol count
is monotonically non-decreasing across the successive per-source merges. -/
theorem tally_invariants_spec (results : List (List (String × Nat))) (i j : Nat)
    (k : String) (hij : i ≤ j) :
    tallyAfter results 0 = []
    ∧ 0 ≤ getCount (tallyAfter results i) k
    ∧ getCount (tallyAfter results i) k ≤ getCount (tallyAfter results j) k :=
  ⟨rfl, Nat.zero_le _, getCount_tallyAfter_mono results i j k hij⟩

/-- Witness for tally_invariants_spec at concrete inputs. -/
theorem tally_invariants_spec_witness :
    tallyAfter [[( "$AAPL", 1)]] 0 = []
    ∧ 0 ≤ getCount (tallyAfter [[( "$AAPL", 1)]] 0) "$AAPL"
    ∧ getCount (tallyAfter [[( "$AAPL", 1)]] 0) "$AAPL"
        ≤ getCount (tallyAfter [[( "$AAPL", 1)]] 1) "$AAPL" :=
  tally_invariants_spec [[( "$AAPL", 1)]] 0 1 "$AAPL" (by decide)

/-- C9: the extractor is pure, deterministic and total: a second run on the same
text yields an identical counter, and a text without the sigil character yields
the empty counter rather than a failure. -/
theorem extractor_pure_spec (t : String) (hns : ∀ c ∈ t.data, c ≠ '$') :
    extractTickers t = extractTickers t ∧ extractTickers t = [] := by
  refine ⟨rfl, ?_⟩
  unfold extractTickers scanTickers
  rw [scanAux_no_sigil _ _ hns]
  rfl

/-- Witness for extractor_pure_spec at a concrete input. -/
theorem extractor_pure_spec_witness : extractTickers sampleNoMatch = [] :=
  (extractor_pure_spec sampleNoMatch (by decide)).2

/-- C10: the pattern has no trailing boundary: the sample sigil followed by five
word characters yields the truncated four-character symbol once; in general a
text consisting of the sigil followed by an all-word-character tail of length at
least 3 yields exactly one match made of the sigil and the first at most four of
those characters; and every key of any counter the extractor produces is the
sigil followed by exactly 3 or 4 word characters and carries a count of at
least 1. -/
theorem extractor_truncation_spec (w : List Char) (t : String) (p : String × Nat)
    (hw : w.all isWordChar = true) (h3 : 3 ≤ w.length) (hp : p ∈ extractTickers t) :
    extractTickers sampleTrunc = [( "$ABCD", 1)]
    ∧ extractTickers (String.mk ('$' :: w)) = [(String.mk ('$' :: w.take 4), 1)]
    ∧ tickerShaped p.1 ∧ 1 ≤ p.2 := by
  refine ⟨by decide, ?_, ?_⟩
  · have ht : takeWord 4 w = w.take 4 := takeWord_eq_take 4 w hw
    have hlen : 3 ≤ (takeWord 4 w).length := by
      rw [ht, List.length_take]
      omega
    have hnos : ∀ c ∈ w.drop (w.take 4).length, c ≠ '$' := by
      intro c hc
      exact ne_sigil_of_isWordChar c
        (List.all_eq_true.mp hw c (List.drop_subset _ w hc))
    show bumpMatches [] (scanTickers ('$' :: w)) = _
    unfold scanTickers
    simp only [List.length_cons]
    rw [scanAux_sigil w.length w hlen, ht, scanAux_no_sigil _ _ hnos]
    simp [bumpMatches, addCount]
  · have hshape : ∀ v ∈ scanTickers t.data, tickerShaped (String.mk v) := by
      intro v hv
      obtain ⟨ws, hveq, hall, hge, hle⟩ := scanAux_shape _ _ v hv
      exact ⟨ws, by rw [hveq], hall, by omega⟩
    have := bumpMatches_entry_shape (scanTickers t.data) [] tickerShaped
      (by intro q hq; exact absurd hq (List.not_mem_nil q)) hshape p hp
    exact this

/-- Witness for extractor_truncation_spec at concrete inputs. -/
theorem extractor_truncation_spec_witness :
    extractTickers sampleTrunc = [( "$ABCD", 1)]
    ∧ extractTickers (String.mk ('$' :: ['A', 'B', 'C', 'D', 'E']))
        = [(String.mk ('$' :: (['A', 'B', 'C', 'D', 'E']).take 4), 1)]
    ∧ tickerShaped (( "$ABCD", 1) : String × Nat).1 ∧ 1 ≤ (( "$ABCD", 1) : String × Nat).2 :=
  extractor_truncation_spec ['A', 'B', 'C', 'D', 'E'] sampleTrunc ( "$ABCD", 1)
    (by decide) (by decide) (by decide)

/-- C6: merging per-source counters into the cumulative tally is additive and
commutative: each symbol ends with the sum of its counts over all sources, the
result is independent of the processing order of the sources, and merging the
three sample counters in configuration order yields 3 for the AAPL symbol and 3
for the TSLA symbol. -/
theorem merge_commutative_spec (l l2 : List (List (String × Nat))) (k : String)
    (hperm : l.Perm l2) (hn : ∀ m ∈ l, keysNodup m) :
    getCount (mergeAll l) k = (l.map (fun m => getCount m k)).sum
    ∧ getCount (mergeAll l) k = getCount (mergeAll l2) k
    ∧ mergeAll [[( "$AAPL", 2)], [( "$AAPL", 1), ( "$TSLA", 3)], []]
        = [( "$AAPL", 3), ( "$TSLA", 3)] := by
  refine ⟨?_, ?_, by decide⟩
  · rw [getCount_mergeAll]
    congr 1
    exact List.map_congr_left (fun m hm => entriesSum_eq_getCount m k (hn m hm))
  · rw [getCount_mergeAll, getCount_mergeAll]
    exact (hperm.map (fun m => entriesSum m k)).sum_eq

/-- Witness for merge_commutative_spec at concrete inputs. -/
theorem merge_commutative_spec_witness :
    getCount (mergeAll [[( "$AAPL", 2)], [( "$AAPL", 1), ( "$TSLA", 3)], []]) "$AAPL"
      = ([[( "$AAPL", 2)], [( "$AAPL", 1), ( "$TSLA", 3)], []].map
          (fun m => getCount m "$AAPL")).sum
    ∧ getCount (mergeAll [[( "$AAPL", 2)], [( "$AAPL", 1), ( "$TSLA", 3)], []]) "$AAPL"
        = getCount (mergeAll [[], [( "$AAPL", 1), ( "$TSLA", 3)], [( "$AAPL", 2)]]) "$AAPL"
    ∧ mergeAll [[( "$AAPL", 2)], [( "$AAPL", 1), ( "$TSLA", 3)], []]
        = [( "$AAPL", 3), ( "$TSLA", 3)] :=
  merge_commutative_spec [[( "$AAPL", 2)], [( "$AAPL", 1), ( "$TSLA", 3)], []]
    [[], [( "$AAPL", 1), ( "$TSLA", 3)], [( "$AAPL", 2)]] "$AAPL"
    (by decide) (by decide)

/-- C8: if the harvest of one source fails, the failure propagates uncaught and
aborts the whole scheduled run: exactly the sources up to and including the
failing one are attempted, the run ends with that error, and no report line is
emitted. -/
theorem run_abort_spec (harvest : String → Except String (List (String × Nat)))
    (pre post : List String) (bad e : String)
    (hpre : ∀ a ∈ pre, ∃ m, harvest a = Except.ok m)
    (hbad : harvest bad = Except.error e) :
    (scrapeAndPrintRun harvest (pre ++ bad :: post) []).1 = pre ++ [bad]
    ∧ (scrapeAndPrintRun harvest (pre ++ bad :: post) []).2 = Except.error e
    ∧ reportsOf (scrapeAndPrintRun harvest (pre ++ bad :: post) []).2 = [] := by
  have h := scrapeAndPrintRun_aborts harvest pre post bad e [] hpre hbad
  rw [h]
  exact ⟨rfl, rfl, rfl⟩

/-- Witness for run_abort_spec at concrete inputs. -/
theorem run_abort_spec_witness :
    (scrapeAndPrintRun demoHarvest ([ "goodA"] ++ "badB" :: [ "afterC"]) []).1
      = [ "goodA"] ++ [ "badB"]
    ∧ (scrapeAndPrintRun demoHarvest ([ "goodA"] ++ "badB" :: [ "afterC"]) []).2
        = Except.error "boom"
    ∧ reportsOf (scrapeAndPrintRun demoHarvest ([ "goodA"] ++ "badB" :: [ "afterC"]) []).2
        = [] :=
  run_abort_spec demoHarvest [ "goodA"] [ "afterC"] "badB" "boom"
    (by
      intro a ha
      simp only [List.mem_singleton] at ha
      subst ha
      exact ⟨[( "$GME", 5)], rfl⟩)
    rfl

/-- C1 counterexample: for a renderer whose navigation throws, scrapeTwitter exits
with the navigation error and performs zero invocations of the session close
operation, not one: the source has no try/finally around the harvest, so the
claim that the close runs exactly once on every exit path is false. -/
theorem harvester_close_counterexample :
    scrapeTwitter ⟨false, [500, 500], true, []⟩
      = some (Except.error "NavigationFailure", 0)
    ∧ (0 : Nat) ≠ 1 :=
  ⟨rfl, by decide⟩

/-- C1 amended: the close operation is invoked exactly once on a successful
harvest and zero times on a failing one, so the session is leaked whenever
navigation or a later step fails. -/
theorem harvester_close_amended (r : Renderer)
    (res : Except String (List (String × Nat))) (n : Nat)
    (h : scrapeTwitter r = some (res, n)) :
    n = if isOkResult res = true then 1 else 0 := by
  obtain ⟨g, hs, sel, arts⟩ := r
  cases g
  · simp only [scrapeTwitter, Bool.false_eq_true, if_false, Option.some.injEq,
      Prod.mk.injEq] at h
    rw [← h.1, ← h.2]
    rfl
  · cases hd : scrollDetector hs with
    | none => simp [scrapeTwitter, hd] at h
    | some c =>
      cases sel
      · simp [scrapeTwitter, hd] at h
        rw [← h.1, ← h.2]
        rfl
      · simp [scrapeTwitter, hd] at h
        rw [← h.1, ← h.2]
        rfl

/-- Witness for harvester_close_amended at a concrete successful renderer. -/
theorem harvester_close_amended_witness :
    (1 : Nat) = if isOkResult (Except.ok ([] : List (String × Nat))) = true then 1 else 0 :=
  harvester_close_amended ⟨true, [500, 500], true, []⟩ (Except.ok []) 1 rfl

/-- C2 counterexample: with the process start at time 0, a first run reporting at
minute 1 and a second run starting at minute 15 and reporting at minute 16, the
code reports 16 elapsed minutes for the second run, while the claimed per-run
formula gives round of 60000 ms, that is 1: startTime is captured once per
process, not once per scheduled run. -/
theorem run_window_counterexample :
    mainTrace 0 [(0, 60000), (900000, 60000)] = [(60000, 1), (960000, 16)]
    ∧ jsRoundMinutes (960000 - 900000) = 1
    ∧ (16 : Nat) ≠ 1 :=
  ⟨by decide, by decide, by decide⟩

/-- C2 amended: the start timestamp is captured exactly once per process, before
the first run, and never reset; every run reports elapsed minutes equal to
round of (report time minus the process start) over 60000, which agrees with the
claimed per-run window only for a run that starts at the process start (the
first run). -/
theorem run_window_amended (startTime : Nat) (runs : List (Nat × Nat)) (s d : Nat)
    (hmem : (s, d) ∈ runs) :
    (s + d, elapsedMinutesAt startTime (s + d)) ∈ mainTrace startTime runs
    ∧ mainTrace startTime ((startTime, d) :: runs)
        = (startTime + d, jsRoundMinutes d) :: mainTrace startTime runs := by
  constructor
  · have hm := List.mem_map_of_mem
      (fun r : Nat × Nat => (r.1 + r.2, elapsedMinutesAt startTime (r.1 + r.2))) hmem
    simpa [mainTrace] using hm
  · simp [mainTrace, elapsedMinutesAt]

/-- Witness for run_window_amended at concrete inputs. -/
theorem run_window_amended_witness :
    ((0 : Nat) + 120000, elapsedMinutesAt 0 (0 + 120000)) ∈ mainTrace 0 [(0, 120000)]
    ∧ mainTrace 0 ((0, 120000) :: [(0, 120000)])
        = (0 + 120000, jsRoundMinutes 120000) :: mainTrace 0 [(0, 120000)] :=
  run_window_amended 0 [(0, 120000)] 0 120000 (by decide)

/-- C3 counterexample: with the interval timer armed at time 0, an interval of 10
and every timer-fired run lasting 5, the second timer-fired run is triggered at
time 20, whereas the claimed completion-to-next-start schedule would trigger it
at the first run completion 15 plus the interval, that is 25: setInterval fires
on a fixed-rate clock from arming, not re-armed after each completion. -/
theorem scheduler_rearm_counterexample :
    codeTrigger 0 10 1 = 20
    ∧ completionTime 0 10 (fun _ => 5) 0 + 10 = 25
    ∧ (20 : Nat) ≠ 25 :=
  ⟨rfl, rfl, by decide⟩

/-- C3 amended: consecutive timer-fired runs are triggered at a fixed interval
measured from the previous trigger on a fixed-rate clock anchored at the arming
instant (the completion of the first, immediate run), independent of when any
run completes. -/
theorem scheduler_rearm_amended (armTime interval k : Nat) (dur : Nat → Nat) :
    codeTrigger armTime interval (k + 1) = codeTrigger armTime interval k + interval
    ∧ codeTrigger armTime interval 0 = armTime + interval
    ∧ completionTime armTime interval dur k = armTime + (k + 1) * interval + dur k := by
  unfold codeTrigger completionTime
  refine ⟨by ring, by ring, rfl⟩
